import Mathlib

/-!
Formal model of the cascading momentum ranking system in
`src/stock_ranking.py`: the monthly return calculator (`get_rolling_ret`
over monthly compounded factors), the cascade selector
(`get_top_stocks`, `get_ultra_top_stocks`), the ranking-engine gate
(`process_stock_data`), the bounded history store (`update_history`,
`save_history`) and the change analyzer (`analyze_ranking_changes`).

Prices and returns are modelled over `ℚ`; a pandas `NaN` cell is
`Option.none`.  A pandas `Series` row of one horizon's return table is a
column order `cols : List String` together with a valuation
`r : String → Option ℚ`.
-/

namespace StockRanking

/-- The defined (non-NaN) entries of one horizon's return row, in
dataframe column order; this is what `Series.dropna` keeps and what
`nlargest` ranks over. -/
def definedRow (cols : List String) (r : String → Option ℚ) :
    List (String × ℚ) :=
  cols.filterMap (fun s => (r s).map (fun v => (s, v)))

/-- First maximal element of a list of (symbol, value) pairs, together
with the remaining list in original order.  Ties keep the earliest
entry, matching pandas `nlargest` with its default `keep` behaviour. -/
def extractMaxFirst :
    List (String × ℚ) → Option ((String × ℚ) × List (String × ℚ))
  | [] => none
  | x :: xs =>
    match extractMaxFirst xs with
    | none => some (x, [])
    | some (m, rest) =>
      if x.2 < m.2 then some (m, x :: rest) else some (x, xs)

/-- `nlargest n`: the symbols of the `n` largest entries, in descending
value order, ties broken by first position — pandas
`Series.nlargest(n).index`.  NaN entries are already absent from the
input (see `definedRow`). -/
def nlargest : Nat → List (String × ℚ) → List String
  | 0, _ => []
  | n + 1, l =>
    match extractMaxFirst l with
    | none => []
    | some (m, rest) => m.1 :: nlargest n rest

/-- `top_50_stocks = ret_12.loc[date].nlargest(top_50).index` with
`top_50 = min(50, available_stocks)` and `available_stocks` the count of
defined 12-month returns. -/
def top_50_stocks (cols : List String) (r12 : String → Option ℚ) :
    List String :=
  nlargest (min 50 (definedRow cols r12).length) (definedRow cols r12)

/-- `top_30_stocks = ret_6.loc[date, top_50_stocks].nlargest(top_30).index`
with `top_30 = min(30, available_stocks)`. -/
def top_30_stocks (cols : List String) (r12 r6 : String → Option ℚ) :
    List String :=
  nlargest (min 30 (definedRow cols r12).length)
    (definedRow (top_50_stocks cols r12) r6)

/-- `get_top_stocks(date, ret_12, ret_6, ret_3, n_top)`: the `n_top`
adjustment (`if available_stocks < n_top: n_top = available_stocks`,
with `available_stocks = len(ret_12.loc[date].dropna())`) followed by
`ret_3.loc[date, top_30_stocks].nlargest(n_top).index.tolist()`. -/
def get_top_stocks (cols : List String) (r12 r6 r3 : String → Option ℚ)
    (n_top : Nat) : List String :=
  nlargest
    (if (definedRow cols r12).length < n_top then
      (definedRow cols r12).length
    else n_top)
    (definedRow (top_30_stocks cols r12 r6) r3)

/-- `get_ultra_top_stocks(date, ret_12, ret_6, ret_3, ret_1, n_top)`:
the source re-derives the whole Stage A–C chain inline (locals
`top_50_stocks`, `top_30_stocks`, `top_10_stocks`, duplicating
`get_top_stocks`) and then takes
`ret_1.loc[date, top_10_stocks].nlargest(n_top).index.tolist()`.  The
three nested `nlargest` applications below are those inline locals. -/
def get_ultra_top_stocks (cols : List String)
    (r12 r6 r3 r1 : String → Option ℚ) (n_top : Nat) : List String :=
  nlargest
    (if (definedRow cols r12).length < n_top then
      (definedRow cols r12).length
    else n_top)
    (definedRow
      (nlargest (min 10 (definedRow cols r12).length)
        (definedRow
          (nlargest (min 30 (definedRow cols r12).length)
            (definedRow
              (nlargest (min 50 (definedRow cols r12).length)
                (definedRow cols r12))
              r6))
          r3))
      r1)

/-- Stage A of the cascade as the spec words it: rank the pool of assets
with a defined long-horizon return descending, keep the top
`min(50, |pool|)`. -/
def spec_stageA (cols : List String) (r12 : String → Option ℚ) :
    List String :=
  nlargest (min 50 (definedRow cols r12).length) (definedRow cols r12)

/-- Stage B as the spec words it: among Stage-A survivors with a defined
medium-horizon return, rank descending, keep the top `min(30, |pool|)`
where `|pool|` is the size of that eligible set. -/
def spec_stageB (cols : List String) (r12 r6 : String → Option ℚ) :
    List String :=
  nlargest (min 30 (definedRow (spec_stageA cols r12) r6).length)
    (definedRow (spec_stageA cols r12) r6)

/-- Stage C as the spec words it: among Stage-B survivors with a defined
short-horizon return, rank descending, keep the top `min(10, |pool|)` —
published as `top10`. -/
def spec_stageC (cols : List String) (r12 r6 r3 : String → Option ℚ) :
    List String :=
  nlargest (min 10 (definedRow (spec_stageB cols r12 r6) r3).length)
    (definedRow (spec_stageB cols r12 r6) r3)

/-- Stage D as the spec words it: among Stage-C survivors with a defined
micro-horizon return, rank descending, keep the top `min(5, |pool|)` —
published as `ultraTop5`. -/
def spec_stageD (cols : List String)
    (r12 r6 r3 r1 : String → Option ℚ) : List String :=
  nlargest (min 5 (definedRow (spec_stageC cols r12 r6 r3) r1).length)
    (definedRow (spec_stageC cols r12 r6 r3) r1)

/-- `df.rolling(n).apply(np.prod)` over a chronological list of monthly
`(1 + r)` factors: position `i` carries the product of the window of the
`n` factors ending there when at least `n` factors are available, and
NaN (`none`) otherwise. -/
def get_rolling_ret (f : List ℚ) (n : Nat) : List (Option ℚ) :=
  (List.range f.length).map (fun i =>
    if n ≤ i + 1 then some (((f.take (i + 1)).drop (i + 1 - n)).prod)
    else none)

/-- One step of grouping a chronological `(month id, factor)` stream:
multiply into the current month's running product, or open a new month
group. -/
def monthStep (acc : List (Nat × ℚ)) (p : Nat × ℚ) : List (Nat × ℚ) :=
  match acc with
  | [] => [p]
  | q :: t => if q.1 = p.1 then (q.1, q.2 * p.2) :: t else p :: q :: t

/-- `resample('ME').prod()` on a chronological `(month id, factor)`
stream: the product of the factors of each month, months in order. -/
def monthProds (l : List (Nat × ℚ)) : List ℚ :=
  ((l.foldl monthStep []).reverse).map Prod.snd

/-- The price values of one dataframe column (after the `dropna(axis=1)`
gate every cell is defined, so this is just the cell list). -/
def colPrices (c : List (Option ℚ)) : List ℚ := c.filterMap id

/-- `df.pct_change() + 1` followed by `[1:]`: the ratio of each price to
its predecessor, one factor per row from the second row on. -/
def colFactors (p : List ℚ) : List ℚ :=
  (p.zip p.tail).map (fun q => q.2 / q.1)

/-- `mtl` for one column: daily ratio factors grouped by the month id of
their row (`months` lists the month id of every price row; factors start
at the second row) and multiplied within each month. -/
def colMtl (months : List Nat) (c : List (Option ℚ)) : List ℚ :=
  monthProds ((months.drop 1).zip (colFactors (colPrices c)))

/-- Python-dict lookup on an association list: the value of the first
pair whose key matches. -/
def dlookup {K V : Type} [DecidableEq K] (a : K) :
    List (K × V) → Option V
  | [] => none
  | p :: t => if p.1 = a then some p.2 else dlookup a t

/-- `df.dropna(axis=1)`: keep exactly the columns with no NaN cell. -/
def cleanCols (df : List (String × List (Option ℚ))) :
    List (String × List (Option ℚ)) :=
  df.filter (fun c => c.2.all (fun v => v.isSome))

/-- `ret_h.loc[latest_date]` for one column: the last entry of the
rolling product series, NaN when the window is incomplete. -/
def lastRet (months : List Nat) (c : List (Option ℚ)) (h : Nat) :
    Option ℚ :=
  Option.join ((get_rolling_ret (colMtl months c) h).getLast?)

/-- The horizon-`h` return row at the latest date, as a valuation on
symbols of the cleaned dataframe. -/
def procRet (months : List Nat) (df : List (String × List (Option ℚ)))
    (h : Nat) : String → Option ℚ :=
  fun s => (dlookup s (cleanCols df)).bind (fun c => lastRet months c h)

/-- The result record `process_stock_data` publishes for one universe. -/
structure RankResult where
  top_10 : List String
  ultra_top_5 : List String
  total_stocks_processed : Nat
deriving Repr, DecidableEq

/-- The in-scope part of `process_stock_data`: the dataframe of daily
closes (`df`, one aligned cell list per symbol; `months` gives each
row's month id) is cleaned with `dropna(axis=1)`; fewer than 5 surviving
columns returns the `None` sentinel; an empty monthly index makes
`mtl.index[-1]` raise, which the enclosing handler turns into `None`;
otherwise the snapshot with `top_10` and `ultra_top_5` is built. -/
def process_stock_data (months : List Nat)
    (df : List (String × List (Option ℚ))) : Option RankResult :=
  let cleaned := cleanCols df
  if cleaned.length < 5 then none
  else if months.drop 1 = [] then none
  else
    some
      { top_10 := get_top_stocks (cleaned.map Prod.fst)
          (procRet months df 12) (procRet months df 6)
          (procRet months df 3) 10,
        ultra_top_5 := get_ultra_top_stocks (cleaned.map Prod.fst)
          (procRet months df 12) (procRet months df 6)
          (procRet months df 3) (procRet months df 1) 5,
        total_stocks_processed := cleaned.length }

/-- One day's slice of the history file:
`{"ultra_top_5": [...], "top_10": [...]}` under the `nasdaq100` key. -/
structure DayEntry where
  ultra_top_5 : List String
  top_10 : List String
deriving Repr, DecidableEq

/-- The entry `update_history` builds from the day's result, with empty
tiers when the engine returned the `None` sentinel. -/
def mkDayEntry : Option RankResult → DayEntry
  | some r => { ultra_top_5 := r.ultra_top_5, top_10 := r.top_10 }
  | none => { ultra_top_5 := [], top_10 := [] }

/-- Python `h[k] = v` on a dict modelled as an insertion-ordered
association list: replace in place when the key exists, else append. -/
def dictInsert {K V : Type} [DecidableEq K] (h : List (K × V)) (k : K)
    (v : V) : List (K × V) :=
  if h.any (fun p => p.1 = k) then
    h.map (fun p => if p.1 = k then (k, v) else p)
  else h ++ [(k, v)]

/-- `sorted(keys, reverse=True)`.  A `%Y-%m-%d` date string is modelled
as its `yyyymmdd` numeral: lexicographic order on ISO date strings is
exactly numeric order on these keys. -/
def sortedDatesDesc (ks : List Nat) : List Nat :=
  List.insertionSort (fun a b => b ≤ a) ks

instance : IsTotal Nat (fun a b => b ≤ a) :=
  ⟨fun a b => Or.symm (Nat.le_total a b)⟩

instance : IsTrans Nat (fun a b => b ≤ a) :=
  ⟨fun _ _ _ hab hbc => Nat.le_trans hbc hab⟩

/-- `update_history(history, nasdaq_result)`: upsert today's entry, then
prune — when more than 30 keys exist, rebuild the dict from the 30
newest keys in descending order.  `today` stands for
`datetime.now().strftime("%Y-%m-%d")`. -/
def update_history (h : List (Nat × DayEntry)) (today : Nat)
    (res : Option RankResult) : List (Nat × DayEntry) :=
  let h1 := dictInsert h today (mkDayEntry res)
  let sorted_dates := sortedDatesDesc (h1.map Prod.fst)
  if 30 < sorted_dates.length then
    (sorted_dates.take 30).filterMap
      (fun d => (dlookup d h1).map (fun v => (d, v)))
  else h1

/-- The content of `data/rankings_history.json` at each step boundary of
`save_history`: before the call, after `open(history_file, "w")` (which
truncates the file in place), and after a completed `json.dump`. -/
def save_history_states (oldContent newContent : String) : List String :=
  [oldContent, "", newContent]

/-- Atomicity of a save, as the spec demands it: at every observable
point the file holds either the complete old contents or the complete
new contents. -/
def AtomicSave (oldContent newContent : String)
    (states : List String) : Prop :=
  ∀ s ∈ states, s = oldContent ∨ s = newContent

/-- One emitted line of the change analysis: `(変動なし)` for an
unchanged position, `yesterday → today 🔄` for a changed one. -/
inductive RankChange where
  | unchanged (s : String)
  | changed (prev cur : String)
deriving Repr, DecidableEq

/-- The positional comparison
`zip(today_nasdaq, yesterday_nasdaq)` of `analyze_ranking_changes`. -/
def diffTop5 (todayL ydayL : List String) : List RankChange :=
  (todayL.zip ydayL).map
    (fun p =>
      if p.1 = p.2 then RankChange.unchanged p.1
      else RankChange.changed p.2 p.1)

/-- `analyze_ranking_changes(history)`: nothing with fewer than two
entries; otherwise the two newest dates are compared position by
position over their `ultra_top_5` lists (both must be non-empty, the
Python truthiness guard).  The emitted report lines are the return
value. -/
def analyze_ranking_changes (h : List (Nat × DayEntry)) :
    List RankChange :=
  if h.length < 2 then []
  else
    match sortedDatesDesc (h.map Prod.fst) with
    | today :: yday :: _ =>
      match dlookup today h, dlookup yday h with
      | some te, some ye =>
        if te.ultra_top_5 ≠ [] ∧ ye.ultra_top_5 ≠ [] then
          diffTop5 te.ultra_top_5 ye.ultra_top_5
        else []
      | _, _ => []
    | _ => []

end StockRanking

namespace StockRanking

theorem extractMaxFirst_eq_none {l : List (String × ℚ)} :
    extractMaxFirst l = none ↔ l = [] := by
  constructor
  · intro h
    cases l with
    | nil => rfl
    | cons x xs =>
      rw [extractMaxFirst] at h
      rcases hx : extractMaxFirst xs with _ | p
      · rw [hx] at h; simp at h
      · rw [hx] at h
        rcases p with ⟨m, rest⟩
        by_cases hc : x.2 < m.2 <;> simp [hc] at h
  · rintro rfl; rfl

theorem extractMaxFirst_perm {l rest : List (String × ℚ)}
    {m : String × ℚ} (h : extractMaxFirst l = some (m, rest)) :
    l.Perm (m :: rest) := by
  induction l generalizing m rest with
  | nil => simp [extractMaxFirst] at h
  | cons x xs ih =>
    rw [extractMaxFirst] at h
    rcases hx : extractMaxFirst xs with _ | ⟨m0, rest0⟩
    · rw [hx] at h
      simp only [Option.some.injEq, Prod.mk.injEq] at h
      obtain ⟨rfl, rfl⟩ := h
      have hxs : xs = [] := extractMaxFirst_eq_none.mp hx
      subst hxs
      exact List.Perm.refl _
    · rw [hx] at h
      by_cases hc : x.2 < m0.2
      · simp only [if_pos hc, Option.some.injEq, Prod.mk.injEq] at h
        obtain ⟨rfl, rfl⟩ := h
        exact ((ih hx).cons x).trans (List.Perm.swap m0 x rest0)
      · simp only [if_neg hc, Option.some.injEq, Prod.mk.injEq] at h
        obtain ⟨rfl, rfl⟩ := h
        exact List.Perm.refl _

theorem nlargest_nil (n : Nat) : nlargest n [] = [] := by
  cases n <;> rfl

theorem nlargest_length (n : Nat) (l : List (String × ℚ)) :
    (nlargest n l).length = min n l.length := by
  induction n generalizing l with
  | zero => simp [nlargest]
  | succ k ih =>
    rcases hx : extractMaxFirst l with _ | ⟨m, rest⟩
    · have : l = [] := extractMaxFirst_eq_none.mp hx
      subst this
      simp [nlargest_nil]
    · have hlen : l.length = rest.length + 1 := by
        have := (extractMaxFirst_perm hx).length_eq
        simpa using this
      simp only [nlargest, hx, List.length_cons, ih rest, hlen]
      omega

theorem nlargest_stable (n : Nat) (l : List (String × ℚ))
    (h : l.length ≤ n) : nlargest n l = nlargest l.length l := by
  induction n generalizing l with
  | zero =>
    have : l = [] := by
      cases l with
      | nil => rfl
      | cons x xs => simp at h
    subst this; rfl
  | succ k ih =>
    rcases hx : extractMaxFirst l with _ | ⟨m, rest⟩
    · have : l = [] := extractMaxFirst_eq_none.mp hx
      subst this; simp [nlargest_nil]
    · have hlen : l.length = rest.length + 1 := by
        have := (extractMaxFirst_perm hx).length_eq
        simpa using this
      have hr : rest.length ≤ k := by omega
      simp only [hlen, nlargest, hx]
      rw [ih rest hr]

theorem nlargest_eq_min (n : Nat) (l : List (String × ℚ)) :
    nlargest n l = nlargest (min n l.length) l := by
  by_cases h : l.length ≤ n
  · rw [nlargest_stable n l h, min_eq_right h]
  · rw [min_eq_left (by omega)]

theorem nlargest_cap {k a : Nat} {pool : List (String × ℚ)}
    (h : pool.length ≤ a) :
    nlargest (min k a) pool = nlargest (min k pool.length) pool := by
  rw [nlargest_eq_min (min k a) pool,
    nlargest_eq_min (min k pool.length) pool]
  congr 1
  omega

theorem nlargest_mem {n : Nat} {l : List (String × ℚ)} {s : String}
    (h : s ∈ nlargest n l) : ∃ q, (s, q) ∈ l := by
  induction n generalizing l with
  | zero => simp [nlargest] at h
  | succ k ih =>
    rw [nlargest] at h
    rcases hx : extractMaxFirst l with _ | p
    · rw [hx] at h; simp at h
    · rcases p with ⟨m, rest⟩
      rw [hx] at h
      have hperm := extractMaxFirst_perm hx
      rcases List.mem_cons.mp h with rfl | hmem
      · exact ⟨m.2, hperm.mem_iff.mpr (by simp)⟩
      · obtain ⟨q, hq⟩ := ih hmem
        exact ⟨q, hperm.mem_iff.mpr (List.mem_cons_of_mem _ hq)⟩

theorem definedRow_nil (r : String → Option ℚ) : definedRow [] r = [] :=
  rfl

theorem definedRow_mem {cols : List String} {r : String → Option ℚ}
    {s : String} {q : ℚ} (h : (s, q) ∈ definedRow cols r) :
    s ∈ cols ∧ r s = some q := by
  rw [definedRow, List.mem_filterMap] at h
  obtain ⟨a, ha, hfa⟩ := h
  rcases hra : r a with _ | v
  · rw [hra] at hfa; simp at hfa
  · rw [hra] at hfa
    simp at hfa
    obtain ⟨rfl, rfl⟩ := hfa
    exact ⟨ha, hra⟩

theorem definedRow_length_le (cols : List String)
    (r : String → Option ℚ) :
    (definedRow cols r).length ≤ cols.length :=
  List.length_filterMap_le _ _

theorem mem_cols_of_mem_nlargest {n : Nat} {cols : List String}
    {r : String → Option ℚ} {s : String}
    (h : s ∈ nlargest n (definedRow cols r)) : s ∈ cols := by
  obtain ⟨q, hq⟩ := nlargest_mem h
  exact (definedRow_mem hq).1

theorem if_lt_eq_min (a n : Nat) : (if a < n then a else n) = min n a := by
  split <;> omega

theorem ultra_top10_pool (cols : List String)
    (r12 r6 r3 r1 : String → Option ℚ) (n : Nat) :
    get_ultra_top_stocks cols r12 r6 r3 r1 n =
      nlargest
        (if (definedRow cols r12).length < n then
          (definedRow cols r12).length
        else n)
        (definedRow (get_top_stocks cols r12 r6 r3 10) r1) := by
  rw [get_ultra_top_stocks, get_top_stocks, top_30_stocks, top_50_stocks,
    if_lt_eq_min _ 10]

theorem get_rolling_ret_last (f : List ℚ) (n : Nat) (hn : f.length = n)
    (h0 : 0 < n) :
    (get_rolling_ret f n).getLast? = some (some f.prod) := by
  have hr : (List.range n).getLast? = some (n - 1) := by
    cases n with
    | zero => omega
    | succ m =>
      rw [List.range_succ, List.getLast?_concat]
      simp
  rw [get_rolling_ret, hn, List.getLast?_map, hr]
  have h1 : n - 1 + 1 = n := by omega
  simp only [Option.map_some', h1, le_refl, if_pos, Nat.sub_self,
    List.drop_zero]
  rw [← hn, List.take_length]

/-- C1 (amended): for a constant monthly factor series of 12 months, the
12-month value produced by the return calculator is the bare product of
the `(1 + r)` factors, `c ^ 12`; the code accumulates in ratio space and
never performs the final subtraction of 1. -/
theorem rolling_return_constant_series (c : ℚ) :
    (get_rolling_ret (List.replicate 12 c) 12).getLast? =
      some (some (c ^ 12)) := by
  rw [get_rolling_ret_last (List.replicate 12 c) 12 (by simp) (by omega),
    List.prod_replicate]

/-- C1 counterexample: with a constant 1% monthly return for 12 months
the calculator's 12-month value is `1.01 ^ 12`, not the claimed
`1.01 ^ 12 - 1`. -/
theorem rolling_return_no_subtraction :
    (get_rolling_ret (List.replicate 12 ((101 : ℚ) / 100)) 12).getLast? =
      some (some (((101 : ℚ) / 100) ^ 12)) ∧
    (get_rolling_ret (List.replicate 12 ((101 : ℚ) / 100)) 12).getLast? ≠
      some (some (((101 : ℚ) / 100) ^ 12 - 1)) := by
  have h := get_rolling_ret_last (List.replicate 12 ((101 : ℚ) / 100)) 12
    (by simp) (by omega)
  rw [List.prod_replicate] at h
  refine ⟨h, ?_⟩
  rw [h]
  intro hc
  have h1 := Option.some.inj (Option.some.inj hc)
  have h2 : (1 : ℚ) = 0 := by linarith
  norm_num at h2

/-- C2: the cascade implemented by `get_top_stocks` and
`get_ultra_top_stocks` coincides, stage by stage, with the spec's
description: rank descending and keep `min(50, |pool|)`,
`min(30, |pool|)`, `min(10, |pool|)` (published as `top10`),
`min(5, |pool|)` (published as `ultraTop5`), where each pool is the
previous stage's survivors with a defined return for the stage's
horizon. -/
theorem cascade_stages_match_spec (cols : List String)
    (r12 r6 r3 r1 : String → Option ℚ) :
    spec_stageA cols r12 = top_50_stocks cols r12 ∧
    spec_stageB cols r12 r6 = top_30_stocks cols r12 r6 ∧
    spec_stageC cols r12 r6 r3 = get_top_stocks cols r12 r6 r3 10 ∧
    spec_stageD cols r12 r6 r3 r1 =
      get_ultra_top_stocks cols r12 r6 r3 r1 5 := by
  have hA : spec_stageA cols r12 = top_50_stocks cols r12 := rfl
  have h50len : (top_50_stocks cols r12).length ≤
      (definedRow cols r12).length := by
    rw [top_50_stocks, nlargest_length]; omega
  have hBpool : (definedRow (top_50_stocks cols r12) r6).length ≤
      (definedRow cols r12).length :=
    le_trans (definedRow_length_le _ _) h50len
  have hB : spec_stageB cols r12 r6 = top_30_stocks cols r12 r6 := by
    rw [spec_stageB, hA, top_30_stocks, nlargest_cap hBpool]
  have h30len : (top_30_stocks cols r12 r6).length ≤
      (definedRow cols r12).length := by
    rw [top_30_stocks, nlargest_length]; omega
  have hCpool : (definedRow (top_30_stocks cols r12 r6) r3).length ≤
      (definedRow cols r12).length :=
    le_trans (definedRow_length_le _ _) h30len
  have hC : spec_stageC cols r12 r6 r3 =
      get_top_stocks cols r12 r6 r3 10 := by
    rw [spec_stageC, hB, get_top_stocks, if_lt_eq_min,
      nlargest_cap hCpool]
  have h10len : (get_top_stocks cols r12 r6 r3 10).length ≤
      (definedRow cols r12).length := by
    rw [get_top_stocks, if_lt_eq_min, nlargest_length]; omega
  have hDpool : (definedRow (get_top_stocks cols r12 r6 r3 10) r1).length ≤
      (definedRow cols r12).length :=
    le_trans (definedRow_length_le _ _) h10len
  have hD : spec_stageD cols r12 r6 r3 r1 =
      get_ultra_top_stocks cols r12 r6 r3 r1 5 := by
    rw [spec_stageD, hC, ultra_top10_pool, if_lt_eq_min,
      nlargest_cap hDpool]
  exact ⟨hA, hB, hC, hD⟩

/-- C10: the Stage A–C chain duplicated inside `get_ultra_top_stocks`
produces exactly the `top10` list that `get_top_stocks` publishes, so
`ultraTop5` is always selected out of that very list. -/
theorem ultra_selector_reuses_top10 (cols : List String)
    (r12 r6 r3 r1 : String → Option ℚ) (n : Nat) :
    get_ultra_top_stocks cols r12 r6 r3 r1 n =
      nlargest
        (if (definedRow cols r12).length < n then
          (definedRow cols r12).length
        else n)
        (definedRow (get_top_stocks cols r12 r6 r3 10) r1) :=
  ultra_top10_pool cols r12 r6 r3 r1 n

/-- C3 (amended): `ultraTop5` is a subset (as a set of asset ids, order
not necessarily preserved) of the published `top10`, which is a subset
of the Stage-B survivor pool, which is a subset of the Stage-A survivor
pool.  The order-consistency part of the claim fails; see the
counterexample. -/
theorem cascade_nesting_subsets (cols : List String)
    (r12 r6 r3 r1 : String → Option ℚ) :
    (∀ s ∈ get_ultra_top_stocks cols r12 r6 r3 r1 5,
        s ∈ get_top_stocks cols r12 r6 r3 10) ∧
    (∀ s ∈ get_top_stocks cols r12 r6 r3 10,
        s ∈ top_30_stocks cols r12 r6) ∧
    (∀ s ∈ top_30_stocks cols r12 r6, s ∈ top_50_stocks cols r12) := by
  refine ⟨?_, ?_, ?_⟩
  · intro s hs
    rw [ultra_top10_pool] at hs
    exact mem_cols_of_mem_nlargest hs
  · intro s hs
    rw [get_top_stocks] at hs
    exact mem_cols_of_mem_nlargest hs
  · intro s hs
    rw [top_30_stocks] at hs
    exact mem_cols_of_mem_nlargest hs

theorem cascade_nesting_subsets_witness :
    "B" ∈ get_ultra_top_stocks ["A", "B"]
      (fun s => if s = "A" then some 2 else some 1)
      (fun s => if s = "A" then some 2 else some 1)
      (fun s => if s = "A" then some 2 else some 1)
      (fun s => if s = "A" then some 1 else some 2) 5 ∧
    "B" ∈ get_top_stocks ["A", "B"]
      (fun s => if s = "A" then some 2 else some 1)
      (fun s => if s = "A" then some 2 else some 1)
      (fun s => if s = "A" then some 2 else some 1) 10 := by
  have hm : "B" ∈ get_ultra_top_stocks ["A", "B"]
      (fun s => if s = "A" then some 2 else some 1)
      (fun s => if s = "A" then some 2 else some 1)
      (fun s => if s = "A" then some 2 else some 1)
      (fun s => if s = "A" then some 1 else some 2) 5 := by decide
  exact ⟨hm,
    (cascade_nesting_subsets ["A", "B"]
      (fun s => if s = "A" then some 2 else some 1)
      (fun s => if s = "A" then some 2 else some 1)
      (fun s => if s = "A" then some 2 else some 1)
      (fun s => if s = "A" then some 1 else some 2)).1 "B" hm⟩

/-- C3 counterexample: with two assets where the 3-month ranking is
`A` before `B` but the 1-month ranking is `B` before `A`, the published
`top10` is `["A", "B"]` while `ultraTop5` is `["B", "A"]` — a set-wise
subset but not an order-consistent (sublist/prefix) one. -/
theorem ultra_not_order_consistent :
    get_top_stocks ["A", "B"]
      (fun s => if s = "A" then some 2 else some 1)
      (fun s => if s = "A" then some 2 else some 1)
      (fun s => if s = "A" then some 2 else some 1) 10 = ["A", "B"] ∧
    get_ultra_top_stocks ["A", "B"]
      (fun s => if s = "A" then some 2 else some 1)
      (fun s => if s = "A" then some 2 else some 1)
      (fun s => if s = "A" then some 2 else some 1)
      (fun s => if s = "A" then some 1 else some 2) 5 = ["B", "A"] ∧
    ¬ List.Sublist ["B", "A"] ["A", "B"] := by
  refine ⟨by decide, by decide, by decide⟩

theorem dlookup_eq_none {K V : Type} [DecidableEq K] {a : K}
    {l : List (K × V)} (h : a ∉ l.map Prod.fst) : dlookup a l = none := by
  induction l with
  | nil => rfl
  | cons p t ih =>
    rw [dlookup]
    have h1 : ¬ p.1 = a := fun he => h (by simp [he])
    rw [if_neg h1]
    exact ih (fun hm => h (by simp [List.mem_cons]; right; simpa using hm))

theorem dlookup_isSome {K V : Type} [DecidableEq K] {a : K}
    {l : List (K × V)} (h : a ∈ l.map Prod.fst) :
    ∃ v, dlookup a l = some v := by
  induction l with
  | nil => simp at h
  | cons p t ih =>
    rw [dlookup]
    by_cases hp : p.1 = a
    · exact ⟨p.2, by rw [if_pos hp]⟩
    · rw [if_neg hp]
      apply ih
      rw [List.map_cons, List.mem_cons] at h
      rcases h with h1 | h1
      · exact absurd h1.symm hp
      · exact h1

theorem dlookup_map_replace {K V : Type} [DecidableEq K] (k : K) (v : V)
    (l : List (K × V)) :
    dlookup k (l.map fun p => if p.1 = k then (k, v) else p) =
      if l.any (fun p => p.1 = k) then some v else none := by
  induction l with
  | nil => rfl
  | cons p t ih =>
    by_cases hp : p.1 = k
    · simp [dlookup, hp]
    · have hd : (decide (p.1 = k)) = false := by simp [hp]
      simp only [List.map_cons, dlookup, hp, if_false, ih, List.any_cons,
        hd, Bool.false_or, if_neg hp, decide_False]

theorem dlookup_append_fresh {K V : Type} [DecidableEq K] (k : K) (v : V)
    {l : List (K × V)} (h : l.any (fun p => p.1 = k) = false) :
    dlookup k (l ++ [(k, v)]) = some v := by
  induction l with
  | nil => simp [dlookup]
  | cons p t ih =>
    simp only [List.any_cons, Bool.or_eq_false_iff,
      decide_eq_false_iff_not] at h
    rw [List.cons_append, dlookup, if_neg h.1]
    exact ih (by simp [h.2])

theorem dlookup_dictInsert_self {K V : Type} [DecidableEq K]
    (l : List (K × V)) (k : K) (v : V) :
    dlookup k (dictInsert l k v) = some v := by
  rw [dictInsert]
  by_cases ha : l.any (fun p => p.1 = k) = true
  · rw [if_pos ha, dlookup_map_replace, if_pos ha]
  · rw [if_neg ha]
    have hfalse : l.any (fun p => p.1 = k) = false := by
      cases hb : l.any (fun p => p.1 = k)
      · rfl
      · exact absurd hb ha
    exact dlookup_append_fresh k v hfalse

theorem keys_map_replace {K V : Type} [DecidableEq K]
    (l : List (K × V)) (k : K) (v : V) :
    (l.map (fun p => if p.1 = k then (k, v) else p)).map Prod.fst =
      l.map Prod.fst := by
  induction l with
  | nil => rfl
  | cons p t ih =>
    simp only [List.map_cons, ih]
    congr 1
    by_cases hp : p.1 = k
    · simp [hp]
    · simp [hp]

theorem dictInsert_keys {K V : Type} [DecidableEq K]
    (l : List (K × V)) (k : K) (v : V) :
    (dictInsert l k v).map Prod.fst =
      if l.any (fun p => p.1 = k) then l.map Prod.fst
      else l.map Prod.fst ++ [k] := by
  rw [dictInsert]
  by_cases h : l.any (fun p => p.1 = k) = true
  · rw [if_pos h, if_pos h, keys_map_replace]
  · rw [if_neg h, if_neg h, List.map_append]
    rfl

theorem dictInsert_keys_nodup {K V : Type} [DecidableEq K]
    {l : List (K × V)} {k : K} (v : V)
    (h : (l.map Prod.fst).Nodup) :
    ((dictInsert l k v).map Prod.fst).Nodup := by
  rw [dictInsert_keys]
  by_cases ha : l.any (fun p => p.1 = k) = true
  · rw [if_pos ha]; exact h
  · rw [if_neg ha]
    have hk : k ∉ l.map Prod.fst := by
      intro hm
      apply ha
      rw [List.any_eq_true]
      obtain ⟨p, hp, he⟩ := List.mem_map.mp hm
      exact ⟨p, hp, by simp [he]⟩
    simp [List.nodup_append, h, hk]

theorem mem_keys_dictInsert_self {K V : Type} [DecidableEq K]
    (l : List (K × V)) (k : K) (v : V) :
    k ∈ (dictInsert l k v).map Prod.fst := by
  rw [dictInsert_keys]
  by_cases ha : l.any (fun p => p.1 = k) = true
  · rw [if_pos ha]
    rw [List.any_eq_true] at ha
    obtain ⟨p, hp, he⟩ := ha
    simp only [decide_eq_true_eq] at he
    exact List.mem_map.mpr ⟨p, hp, he⟩
  · rw [if_neg ha]; simp

theorem keys_dictInsert_subset {K V : Type} [DecidableEq K]
    {l : List (K × V)} {k a : K} {v : V}
    (h : a ∈ (dictInsert l k v).map Prod.fst) :
    a ∈ l.map Prod.fst ∨ a = k := by
  rw [dictInsert_keys] at h
  by_cases ha : l.any (fun p => p.1 = k) = true
  · rw [if_pos ha] at h; exact Or.inl h
  · rw [if_neg ha] at h
    rcases List.mem_append.mp h with h1 | h1
    · exact Or.inl h1
    · simp at h1; exact Or.inr h1

theorem rebuild_keys {K V : Type} [DecidableEq K]
    {h1 : List (K × V)} {ds : List K}
    (hds : ∀ d ∈ ds, d ∈ h1.map Prod.fst) :
    ((ds.filterMap
        (fun d => (dlookup d h1).map (fun v => (d, v)))).map Prod.fst) =
      ds := by
  induction ds with
  | nil => rfl
  | cons d t ih =>
    obtain ⟨v, hv⟩ := dlookup_isSome (hds d (by simp))
    rw [List.filterMap_cons, hv]
    simp only [Option.map_some']
    rw [List.map_cons]
    exact congrArg (List.cons d)
      (ih (fun x hx => hds x (List.mem_cons_of_mem _ hx)))

theorem rebuild_keys_subset {K V : Type} [DecidableEq K]
    {h1 : List (K × V)} {ds : List K} {a : K}
    (h : a ∈ (ds.filterMap
        (fun d => (dlookup d h1).map (fun v => (d, v)))).map Prod.fst) :
    a ∈ ds := by
  obtain ⟨p, hp, he⟩ := List.mem_map.mp h
  obtain ⟨d, hd, hfd⟩ := List.mem_filterMap.mp hp
  rcases hl : dlookup d h1 with _ | w
  · rw [hl] at hfd; simp at hfd
  · rw [hl] at hfd
    simp only [Option.map_some', Option.some.injEq] at hfd
    rw [← hfd] at he
    simp only [] at he
    exact he ▸ hd

theorem rebuild_lookup {K V : Type} [DecidableEq K]
    (h1 : List (K × V)) (ds : List K) (a : K) (ha : a ∈ ds) :
    dlookup a (ds.filterMap
        (fun d => (dlookup d h1).map (fun v => (d, v)))) =
      dlookup a h1 := by
  induction ds with
  | nil => simp at ha
  | cons d t ih =>
    rcases hl : dlookup d h1 with _ | w
    · rw [List.filterMap_cons, hl]
      simp only [Option.map_none']
      by_cases hda : d = a
      · subst hda
        by_cases hat : d ∈ t
        · exact ih hat
        · rw [dlookup_eq_none, hl]
          intro hm
          exact hat (rebuild_keys_subset hm)
      · rcases List.mem_cons.mp ha with h1a | h1a
        · exact absurd h1a.symm hda
        · exact ih h1a
    · rw [List.filterMap_cons, hl]
      simp only [Option.map_some']
      rw [dlookup]
      by_cases hda : d = a
      · rw [if_pos hda]
        subst hda
        exact hl.symm
      · rw [if_neg hda]
        rcases List.mem_cons.mp ha with h1a | h1a
        · exact absurd h1a.symm hda
        · exact ih h1a

theorem sortedDatesDesc_perm (ks : List Nat) :
    (sortedDatesDesc ks).Perm ks :=
  List.perm_insertionSort _ ks

theorem sortedDatesDesc_sorted (ks : List Nat) :
    List.Sorted (fun a b => b ≤ a) (sortedDatesDesc ks) :=
  List.sorted_insertionSort _ ks

theorem sorted_take_dominates {l : List Nat} {n : Nat}
    (hs : List.Sorted (fun a b => b ≤ a) l) :
    ∀ a ∈ l.drop n, ∀ b ∈ l.take n, a ≤ b := by
  have h := List.take_append_drop n l
  rw [← h] at hs
  obtain ⟨-, -, hcross⟩ := List.pairwise_append.mp hs
  exact fun a hda b htb => hcross b htb a hda

theorem sorted_mem_take {l : List Nat} {today : Nat} {n : Nat}
    (hs : List.Sorted (fun a b => b ≤ a) l) (hm : today ∈ l)
    (hub : ∀ x ∈ l, x ≤ today) (hn : 0 < n) : today ∈ l.take n := by
  cases l with
  | nil => simp at hm
  | cons x t =>
    have hx : x = today := by
      have h1 : x ≤ today := hub x (by simp)
      rcases List.mem_cons.mp hm with rfl | hmt
      · rfl
      · have h2 : today ≤ x := List.rel_of_pairwise_cons hs hmt
        omega
    cases n with
    | zero => omega
    | succ m =>
      rw [List.take_succ_cons, hx]
      exact List.mem_cons_self _ _

theorem update_history_eq (h : List (Nat × DayEntry)) (today : Nat)
    (res : Option RankResult) :
    update_history h today res =
      if 30 < (dictInsert h today (mkDayEntry res)).length then
        ((sortedDatesDesc
            ((dictInsert h today (mkDayEntry res)).map
              Prod.fst)).take 30).filterMap
          (fun d => (dlookup d (dictInsert h today (mkDayEntry res))).map
            (fun v => (d, v)))
      else dictInsert h today (mkDayEntry res) := by
  have hlen : (sortedDatesDesc
      ((dictInsert h today (mkDayEntry res)).map Prod.fst)).length =
      (dictInsert h today (mkDayEntry res)).length := by
    rw [(sortedDatesDesc_perm _).length_eq, List.length_map]
  simp only [update_history, hlen]

theorem update_history_length_le (h : List (Nat × DayEntry))
    (today : Nat) (res : Option RankResult) :
    (update_history h today res).length ≤ 30 := by
  rw [update_history_eq]
  split
  · refine le_trans (List.length_filterMap_le _ _) ?_
    rw [List.length_take]
    omega
  · omega

theorem update_history_keys_prune (h : List (Nat × DayEntry))
    (today : Nat) (res : Option RankResult)
    (hlen : 30 < (dictInsert h today (mkDayEntry res)).length) :
    (update_history h today res).map Prod.fst =
      (sortedDatesDesc
        ((dictInsert h today (mkDayEntry res)).map Prod.fst)).take 30 := by
  rw [update_history_eq, if_pos hlen]
  apply rebuild_keys
  intro d hd
  exact (sortedDatesDesc_perm _).mem_iff.mp (List.mem_of_mem_take hd)

theorem update_history_keys_noprune (h : List (Nat × DayEntry))
    (today : Nat) (res : Option RankResult)
    (hlen : ¬ 30 < (dictInsert h today (mkDayEntry res)).length) :
    update_history h today res = dictInsert h today (mkDayEntry res) := by
  rw [update_history_eq, if_neg hlen]

theorem update_history_props (h : List (Nat × DayEntry)) (today : Nat)
    (res : Option RankResult)
    (hnd : (h.map Prod.fst).Nodup)
    (hub : ∀ k ∈ h.map Prod.fst, k ≤ today) :
    ((update_history h today res).map Prod.fst).Nodup ∧
    (∀ k ∈ (update_history h today res).map Prod.fst, k ≤ today) ∧
    ((update_history h today res).map Prod.fst).count today = 1 ∧
    dlookup today (update_history h today res) =
      some (mkDayEntry res) := by
  have hnd1 : ((dictInsert h today (mkDayEntry res)).map Prod.fst).Nodup :=
    dictInsert_keys_nodup _ hnd
  have hub1 : ∀ k ∈ (dictInsert h today (mkDayEntry res)).map Prod.fst,
      k ≤ today := by
    intro k hk
    rcases keys_dictInsert_subset hk with h1 | h1
    · exact hub k h1
    · omega
  have hmem1 : today ∈ (dictInsert h today (mkDayEntry res)).map Prod.fst :=
    mem_keys_dictInsert_self h today (mkDayEntry res)
  by_cases hc : 30 < (dictInsert h today (mkDayEntry res)).length
  · have hkeys := update_history_keys_prune h today res hc
    have hsnd : (sortedDatesDesc
        ((dictInsert h today (mkDayEntry res)).map Prod.fst)).Nodup :=
      (sortedDatesDesc_perm _).symm.nodup hnd1
    have htnd : ((update_history h today res).map Prod.fst).Nodup := by
      rw [hkeys]
      exact (List.take_sublist _ _).nodup hsnd
    have hsmem : today ∈ sortedDatesDesc
        ((dictInsert h today (mkDayEntry res)).map Prod.fst) :=
      (sortedDatesDesc_perm _).mem_iff.mpr hmem1
    have hsub : ∀ x ∈ sortedDatesDesc
        ((dictInsert h today (mkDayEntry res)).map Prod.fst), x ≤ today :=
      fun x hx => hub1 x ((sortedDatesDesc_perm _).mem_iff.mp hx)
    have hmtake : today ∈ (sortedDatesDesc
        ((dictInsert h today (mkDayEntry res)).map Prod.fst)).take 30 :=
      sorted_mem_take (sortedDatesDesc_sorted _) hsmem hsub (by omega)
    refine ⟨htnd, ?_, ?_, ?_⟩
    · intro k hk
      rw [hkeys] at hk
      exact hsub k (List.mem_of_mem_take hk)
    · rw [hkeys]
      exact List.count_eq_one_of_mem (hkeys ▸ htnd) hmtake
    · rw [update_history_eq, if_pos hc,
        rebuild_lookup _ _ _ hmtake]
      exact dlookup_dictInsert_self h today (mkDayEntry res)
  · have heq := update_history_keys_noprune h today res hc
    rw [heq]
    exact ⟨hnd1, hub1, List.count_eq_one_of_mem hnd1 hmem1,
      dlookup_dictInsert_self h today (mkDayEntry res)⟩

/-- C5: after upsert-and-prune the history never holds more than 30 date
keys; the kept keys all come from the upserted store and are exactly the
first 30 of the keys in descending-date order whenever pruning fires (so
every evicted key is older than every kept key); and any non-empty
sequence of upsert/prune operations ends with at most 30 keys. -/
theorem history_retention_bound (h : List (Nat × DayEntry)) (today : Nat)
    (res : Option RankResult) :
    (update_history h today res).length ≤ 30 ∧
    (∀ a ∈ (update_history h today res).map Prod.fst,
        a ∈ (dictInsert h today (mkDayEntry res)).map Prod.fst) ∧
    (30 < (dictInsert h today (mkDayEntry res)).length →
      (update_history h today res).map Prod.fst =
        (sortedDatesDesc
          ((dictInsert h today (mkDayEntry res)).map Prod.fst)).take 30) ∧
    (∀ a ∈ (dictInsert h today (mkDayEntry res)).map Prod.fst,
        a ∉ (update_history h today res).map Prod.fst →
        ∀ b ∈ (update_history h today res).map Prod.fst, a ≤ b) ∧
    (∀ (ops : List (Nat × Option RankResult))
        (h0 : List (Nat × DayEntry)), ops ≠ [] →
      (ops.foldl (fun acc p => update_history acc p.1 p.2) h0).length ≤
        30) := by
  have hfold : ∀ (t : List (Nat × Option RankResult))
      (acc : List (Nat × DayEntry)), acc.length ≤ 30 →
      (t.foldl (fun acc p => update_history acc p.1 p.2) acc).length ≤
        30 := by
    intro t
    induction t with
    | nil => exact fun acc hacc => hacc
    | cons p t2 ih =>
      intro acc hacc
      exact ih _ (update_history_length_le acc p.1 p.2)
  refine ⟨update_history_length_le h today res, ?_, ?_, ?_, ?_⟩
  · intro a ha
    by_cases hc : 30 < (dictInsert h today (mkDayEntry res)).length
    · rw [update_history_keys_prune h today res hc] at ha
      exact (sortedDatesDesc_perm _).mem_iff.mp (List.mem_of_mem_take ha)
    · rw [update_history_keys_noprune h today res hc] at ha
      exact ha
  · exact update_history_keys_prune h today res
  · intro a ha hnot b hb
    by_cases hc : 30 < (dictInsert h today (mkDayEntry res)).length
    · rw [update_history_keys_prune h today res hc] at hnot hb
      have hsa : a ∈ sortedDatesDesc
          ((dictInsert h today (mkDayEntry res)).map Prod.fst) :=
        (sortedDatesDesc_perm _).mem_iff.mpr ha
      have hsplit := List.take_append_drop 30 (sortedDatesDesc
          ((dictInsert h today (mkDayEntry res)).map Prod.fst))
      rw [← hsplit] at hsa
      rcases List.mem_append.mp hsa with h1 | h1
      · exact absurd h1 hnot
      · exact sorted_take_dominates (sortedDatesDesc_sorted _) a h1 b hb
    · rw [update_history_keys_noprune h today res hc] at hnot
      exact absurd ha hnot
  · intro ops h0 hops
    cases ops with
    | nil => exact absurd rfl hops
    | cons p t =>
      rw [List.foldl_cons]
      exact hfold t _ (update_history_length_le h0 p.1 p.2)

theorem history_retention_bound_witness :
    30 < (dictInsert
        ((List.range 31).map (fun i => (i, DayEntry.mk [] []))) 40
        (mkDayEntry none)).length ∧
    (update_history ((List.range 31).map (fun i => (i, DayEntry.mk [] [])))
        40 none).map Prod.fst =
      (sortedDatesDesc
        ((dictInsert ((List.range 31).map (fun i => (i, DayEntry.mk [] [])))
            40 (mkDayEntry none)).map Prod.fst)).take 30 ∧
    ([((1 : Nat), (none : Option RankResult))].foldl
        (fun acc p => update_history acc p.1 p.2) []).length ≤ 30 := by
  refine ⟨by decide, ?_, ?_⟩
  · exact (history_retention_bound
      ((List.range 31).map (fun i => (i, DayEntry.mk [] []))) 40
      none).2.2.1 (by decide)
  · exact (history_retention_bound [] 0 none).2.2.2.2
      [((1 : Nat), (none : Option RankResult))] [] (by decide)

/-- C6: upserting the history twice with the same date key leaves
exactly one entry under that key, holding the later call's data
(hypotheses: the store has no duplicate keys and, as for every real run,
no stored date is newer than today). -/
theorem same_day_upsert_idempotent (h : List (Nat × DayEntry))
    (today : Nat) (r1 r2 : Option RankResult)
    (hnd : (h.map Prod.fst).Nodup)
    (hub : ∀ k ∈ h.map Prod.fst, k ≤ today) :
    ((update_history (update_history h today r1) today r2).map
        Prod.fst).count today = 1 ∧
    dlookup today (update_history (update_history h today r1) today r2) =
      some (mkDayEntry r2) := by
  obtain ⟨hnd1, hub1, -, -⟩ := update_history_props h today r1 hnd hub
  obtain ⟨-, -, hc, hl⟩ := update_history_props
    (update_history h today r1) today r2 hnd1 hub1
  exact ⟨hc, hl⟩

theorem same_day_upsert_idempotent_witness :
    ((update_history
          (update_history [(20240101, DayEntry.mk [] [])] 20240102 none)
          20240102 (some (RankResult.mk ["A"] ["B"] 5))).map
        Prod.fst).count 20240102 = 1 ∧
    dlookup 20240102
        (update_history
          (update_history [(20240101, DayEntry.mk [] [])] 20240102 none)
          20240102 (some (RankResult.mk ["A"] ["B"] 5))) =
      some (mkDayEntry (some (RankResult.mk ["A"] ["B"] 5))) :=
  same_day_upsert_idempotent [(20240101, DayEntry.mk [] [])] 20240102
    none (some (RankResult.mk ["A"] ["B"] 5)) (by decide) (by decide)

theorem diffTop5_cons (a b : String) (tl yl : List String) :
    diffTop5 (a :: tl) (b :: yl) =
      (if a = b then RankChange.unchanged a else RankChange.changed b a) ::
        diffTop5 tl yl := by
  simp [diffTop5]

theorem diffTop5_length (tl yl : List String) :
    (diffTop5 tl yl).length = min tl.length yl.length := by
  simp [diffTop5]

theorem diffTop5_getElem (tl yl : List String) (i : Nat) (t y : String)
    (ht : tl[i]? = some t) (hy : yl[i]? = some y) :
    (diffTop5 tl yl)[i]? =
      some (if t = y then RankChange.unchanged t
        else RankChange.changed y t) := by
  induction tl generalizing yl i with
  | nil => simp at ht
  | cons a tl2 ih =>
    cases yl with
    | nil => simp at hy
    | cons b yl2 =>
      cases i with
      | zero =>
        simp only [List.getElem?_cons_zero, Option.some.injEq] at ht hy
        subst ht; subst hy
        rw [diffTop5_cons, List.getElem?_cons_zero]
      | succ j =>
        simp only [List.getElem?_cons_succ] at ht hy
        rw [diffTop5_cons, List.getElem?_cons_succ]
        exact ih yl2 j ht hy

/-- C7: with at least two history entries whose `ultra_top_5` lists are
non-empty, the analyzer walks rank positions of
`zip(today, yesterday)` and emits an `unchanged` event exactly when the
asset ids at the same position coincide, a positional `changed` event
otherwise — a position-based, not set-based comparison. -/
theorem analyzer_position_based (h : List (Nat × DayEntry))
    (today yday : Nat) (rest : List Nat) (te ye : DayEntry)
    (hs : sortedDatesDesc (h.map Prod.fst) = today :: yday :: rest)
    (ht : dlookup today h = some te) (hy : dlookup yday h = some ye)
    (hte : te.ultra_top_5 ≠ []) (hye : ye.ultra_top_5 ≠ []) :
    analyze_ranking_changes h = diffTop5 te.ultra_top_5 ye.ultra_top_5 ∧
    (analyze_ranking_changes h).length =
      min te.ultra_top_5.length ye.ultra_top_5.length ∧
    ∀ (i : Nat) (t y : String), te.ultra_top_5[i]? = some t →
      ye.ultra_top_5[i]? = some y →
      (analyze_ranking_changes h)[i]? =
        some (if t = y then RankChange.unchanged t
          else RankChange.changed y t) := by
  have hlen2 : ¬ h.length < 2 := by
    have h1 := (sortedDatesDesc_perm (h.map Prod.fst)).length_eq
    rw [hs, List.length_map] at h1
    simp only [List.length_cons] at h1
    omega
  have hmain : analyze_ranking_changes h =
      diffTop5 te.ultra_top_5 ye.ultra_top_5 := by
    rw [analyze_ranking_changes, if_neg hlen2, hs]
    simp only [ht, hy]
    rw [if_pos ⟨hte, hye⟩]
  refine ⟨hmain, ?_, ?_⟩
  · rw [hmain, diffTop5_length]
  · intro i t y hti hyi
    rw [hmain]
    exact diffTop5_getElem _ _ i t y hti hyi

theorem analyzer_position_based_witness :
    (analyze_ranking_changes
        [(20240101, DayEntry.mk ["A", "B", "C", "D", "E"] []),
         (20240102, DayEntry.mk ["B", "C", "A", "D", "E"] [])])[0]? =
      some (RankChange.changed "A" "B") ∧
    (analyze_ranking_changes
        [(20240101, DayEntry.mk ["A", "B", "C", "D", "E"] []),
         (20240102, DayEntry.mk ["B", "C", "A", "D", "E"] [])])[2]? =
      some (RankChange.changed "C" "A") ∧
    (analyze_ranking_changes
        [(20240101, DayEntry.mk ["A", "B", "C", "D", "E"] []),
         (20240102, DayEntry.mk ["B", "C", "A", "D", "E"] [])])[3]? =
      some (RankChange.unchanged "D") := by
  have H := analyzer_position_based
    [(20240101, DayEntry.mk ["A", "B", "C", "D", "E"] []),
     (20240102, DayEntry.mk ["B", "C", "A", "D", "E"] [])]
    20240102 20240101 [] (DayEntry.mk ["B", "C", "A", "D", "E"] [])
    (DayEntry.mk ["A", "B", "C", "D", "E"] [])
    (by decide) (by decide) (by decide) (by decide) (by decide)
  refine ⟨?_, ?_, ?_⟩
  · have h0 := H.2.2 0 "B" "A" rfl rfl
    rw [if_neg (by decide)] at h0
    exact h0
  · have h2 := H.2.2 2 "A" "C" rfl rfl
    rw [if_neg (by decide)] at h2
    exact h2
  · have h3 := H.2.2 3 "D" "D" rfl rfl
    rw [if_pos rfl] at h3
    exact h3

/-- C8: the engine's pure gate: when fewer than 5 assets survive the
`dropna(axis=1)` cleaning (which includes the zero-survivor case), the
engine returns the `None` sentinel rather than raising. -/
theorem engine_returns_sentinel (months : List Nat)
    (df : List (String × List (Option ℚ)))
    (hlt : (cleanCols df).length < 5) :
    process_stock_data months df = none := by
  simp only [process_stock_data, if_pos hlt]

theorem engine_returns_sentinel_witness :
    (cleanCols [("A", [some (1 : ℚ)]), ("B", [some 1]), ("C", [some 1]),
        ("D", [some 1])]).length < 5 ∧
    process_stock_data [1, 2]
      [("A", [some (1 : ℚ)]), ("B", [some 1]), ("C", [some 1]),
        ("D", [some 1])] = none :=
  ⟨by decide, engine_returns_sentinel [1, 2] _ (by decide)⟩

theorem top30_empty_of_poolB (cols : List String)
    (r12 r6 : String → Option ℚ)
    (hB : definedRow (top_50_stocks cols r12) r6 = []) :
    top_30_stocks cols r12 r6 = [] := by
  rw [top_30_stocks, hB, nlargest_nil]

theorem top_empty_of_poolC (cols : List String)
    (r12 r6 r3 : String → Option ℚ) (n : Nat)
    (hC : definedRow (top_30_stocks cols r12 r6) r3 = []) :
    get_top_stocks cols r12 r6 r3 n = [] := by
  rw [get_top_stocks, hC, nlargest_nil]

theorem ultra_empty_of_poolD (cols : List String)
    (r12 r6 r3 r1 : String → Option ℚ) (n : Nat)
    (hD : definedRow (get_top_stocks cols r12 r6 r3 10) r1 = []) :
    get_ultra_top_stocks cols r12 r6 r3 r1 n = [] := by
  rw [ultra_top10_pool, hD, nlargest_nil]

theorem stageA_empty_chain (cols : List String)
    (r12 r6 r3 r1 : String → Option ℚ) (n : Nat)
    (hA : definedRow cols r12 = []) :
    top_50_stocks cols r12 = [] ∧ top_30_stocks cols r12 r6 = [] ∧
    get_top_stocks cols r12 r6 r3 n = [] ∧
    get_ultra_top_stocks cols r12 r6 r3 r1 n = [] := by
  have h50 : top_50_stocks cols r12 = [] := by
    rw [top_50_stocks, hA, nlargest_nil]
  have h30 : top_30_stocks cols r12 r6 = [] :=
    top30_empty_of_poolB cols r12 r6 (by rw [h50, definedRow_nil])
  have htop : ∀ m, get_top_stocks cols r12 r6 r3 m = [] := fun m =>
    top_empty_of_poolC cols r12 r6 r3 m (by rw [h30, definedRow_nil])
  exact ⟨h50, h30, htop n,
    ultra_empty_of_poolD cols r12 r6 r3 r1 n
      (by rw [htop 10, definedRow_nil])⟩

/-- C9: a cascade stage with an empty eligible pool yields the empty
list, and so does every later stage — no exception anywhere — and the
engine still produces a snapshot whose tiers are the (possibly empty)
selector outputs whenever the data gate passes. -/
theorem empty_pool_empty_stages (cols : List String)
    (r12 r6 r3 r1 : String → Option ℚ) (n : Nat) (months : List Nat)
    (df : List (String × List (Option ℚ))) :
    (definedRow cols r12 = [] →
      top_50_stocks cols r12 = [] ∧ top_30_stocks cols r12 r6 = [] ∧
      get_top_stocks cols r12 r6 r3 n = [] ∧
      get_ultra_top_stocks cols r12 r6 r3 r1 n = []) ∧
    (definedRow (top_50_stocks cols r12) r6 = [] →
      top_30_stocks cols r12 r6 = [] ∧
      get_top_stocks cols r12 r6 r3 n = [] ∧
      get_ultra_top_stocks cols r12 r6 r3 r1 n = []) ∧
    (definedRow (top_30_stocks cols r12 r6) r3 = [] →
      get_top_stocks cols r12 r6 r3 n = [] ∧
      get_ultra_top_stocks cols r12 r6 r3 r1 n = []) ∧
    (definedRow (get_top_stocks cols r12 r6 r3 10) r1 = [] →
      get_ultra_top_stocks cols r12 r6 r3 r1 n = []) ∧
    (5 ≤ (cleanCols df).length → months.drop 1 ≠ [] →
      ∃ r, process_stock_data months df = some r ∧
        (definedRow ((cleanCols df).map Prod.fst)
            (procRet months df 12) = [] →
          r.top_10 = [] ∧ r.ultra_top_5 = [])) := by
  refine ⟨stageA_empty_chain cols r12 r6 r3 r1 n, ?_, ?_, ?_, ?_⟩
  · intro hB
    have h30 := top30_empty_of_poolB cols r12 r6 hB
    have htop : ∀ m, get_top_stocks cols r12 r6 r3 m = [] := fun m =>
      top_empty_of_poolC cols r12 r6 r3 m (by rw [h30, definedRow_nil])
    exact ⟨h30, htop n,
      ultra_empty_of_poolD cols r12 r6 r3 r1 n
        (by rw [htop 10, definedRow_nil])⟩
  · intro hC
    have htop : ∀ m, get_top_stocks cols r12 r6 r3 m = [] := fun m =>
      top_empty_of_poolC cols r12 r6 r3 m hC
    exact ⟨htop n,
      ultra_empty_of_poolD cols r12 r6 r3 r1 n
        (by rw [htop 10, definedRow_nil])⟩
  · exact ultra_empty_of_poolD cols r12 r6 r3 r1 n
  · intro h5 hm
    have hp : process_stock_data months df =
        some
          { top_10 := get_top_stocks ((cleanCols df).map Prod.fst)
              (procRet months df 12) (procRet months df 6)
              (procRet months df 3) 10,
            ultra_top_5 := get_ultra_top_stocks
              ((cleanCols df).map Prod.fst) (procRet months df 12)
              (procRet months df 6) (procRet months df 3)
              (procRet months df 1) 5,
            total_stocks_processed := (cleanCols df).length } := by
      simp only [process_stock_data,
        if_neg (by omega : ¬ (cleanCols df).length < 5), if_neg hm]
    refine ⟨_, hp, fun hA => ?_⟩
    obtain ⟨-, -, htop, hultra⟩ := stageA_empty_chain
      ((cleanCols df).map Prod.fst) (procRet months df 12)
      (procRet months df 6) (procRet months df 3) (procRet months df 1)
      5 hA
    constructor
    · have htop10 := top_empty_of_poolC ((cleanCols df).map Prod.fst)
        (procRet months df 12) (procRet months df 6)
        (procRet months df 3) 10
        (by
          have h30 := top30_empty_of_poolB ((cleanCols df).map Prod.fst)
            (procRet months df 12) (procRet months df 6)
            (by
              have h50 : top_50_stocks ((cleanCols df).map Prod.fst)
                  (procRet months df 12) = [] := by
                rw [top_50_stocks, hA, nlargest_nil]
              rw [h50, definedRow_nil])
          rw [h30, definedRow_nil])
      exact htop10
    · exact hultra

theorem empty_pool_empty_stages_witness :
    get_ultra_top_stocks ["A"] (fun _ => none) (fun _ => none)
      (fun _ => none) (fun _ => none) 5 = [] ∧
    (∃ r, process_stock_data [1, 2]
        [("A", [some (1 : ℚ), some 1]), ("B", [some 1, some 1]),
         ("C", [some 1, some 1]), ("D", [some 1, some 1]),
         ("E", [some 1, some 1])] = some r ∧
      r.top_10 = [] ∧ r.ultra_top_5 = []) := by
  constructor
  · exact ((empty_pool_empty_stages ["A"] (fun _ => none) (fun _ => none)
      (fun _ => none) (fun _ => none) 5 [] []).1 rfl).2.2.2
  · obtain ⟨r, hr, himp⟩ := (empty_pool_empty_stages [] (fun _ => none)
      (fun _ => none) (fun _ => none) (fun _ => none) 5 [1, 2]
      [("A", [some (1 : ℚ), some 1]), ("B", [some 1, some 1]),
       ("C", [some 1, some 1]), ("D", [some 1, some 1]),
       ("E", [some 1, some 1])]).2.2.2.2 (by decide) (by decide)
    exact ⟨r, hr, himp (by decide)⟩

/-- C4 (refuting the claimed behaviour): `save_history` opens the
history file with mode `w`, truncating it in place before `json.dump`
runs, so the observable file states include the empty file — the save is
not atomic and a failure between the truncating open and a completed
dump loses the previous valid contents. -/
theorem save_history_not_atomic :
    save_history_states "old history json" "new history json" =
      ["old history json", "", "new history json"] ∧
    ¬ AtomicSave "old history json" "new history json"
      (save_history_states "old history json" "new history json") := by
  refine ⟨rfl, ?_⟩
  intro hA
  rcases hA "" (by simp [save_history_states]) with hcontr | hcontr <;>
    exact absurd hcontr (by decide)

example :
    nlargest 2 [("A", (1 : ℚ)), ("B", 3), ("C", 2)] = ["B", "C"] := by
  decide

example :
    get_top_stocks ["A", "B"]
      (fun s => if s = "A" then some 2 else some 1)
      (fun s => if s = "A" then some 2 else some 1)
      (fun s => if s = "A" then some 2 else some 1) 10 = ["A", "B"] := by
  decide

example :
    get_ultra_top_stocks ["A", "B"]
      (fun s => if s = "A" then some 2 else some 1)
      (fun s => if s = "A" then some 2 else some 1)
      (fun s => if s = "A" then some 2 else some 1)
      (fun s => if s = "A" then some 1 else some 2) 5 = ["B", "A"] := by
  decide

example :
    get_rolling_ret [2, 3, 4] 2 = [none, some 6, some 12] := by
  norm_num [get_rolling_ret, List.range_succ]

example : sortedDatesDesc [20240101, 20240102] =
    [20240102, 20240101] := by decide

example :
    update_history [(20240101, ⟨["A"], ["A"]⟩)] 20240102
      (some ⟨["B"], ["C"], 7⟩) =
    [(20240101, ⟨["A"], ["A"]⟩), (20240102, ⟨["C"], ["B"]⟩)] := by
  decide

example :
    analyze_ranking_changes
      [(20240101, ⟨["A", "B"], []⟩), (20240102, ⟨["A", "C"], []⟩)] =
    [RankChange.unchanged "A", RankChange.changed "B" "C"] := by
  decide

end StockRanking
